import Mathlib

/-!
Verification of the rust_tasks pipeline library.

The development shallowly embeds the two core source modules:

* `task_lib.rs` (module `tasks`): the `Target` capability with its `NullTarget`
  and `FileTarget` implementations, and the `Task` trait with its default
  protocol (`run`, `get_data`, ...).  The filesystem is modelled as an
  association list from full file paths to byte vectors (`Store`);
  `DatedFileTarget` is a `FileTarget` whose effective path carries the date
  chunk, so it is covered by the `file` constructor applied to that path.

* `scheduler_ilb.rs` (module `scheduler`): `Node`, `DAG`, `DAG::new`,
  `DAG::run`, `DAG::get_run_candidates`, `DAG::delete_all`.  Node ids are
  natural numbers minted by a counter (the source mints fresh UUIDs; only
  freshness matters).  The `while` loop of `DAG::run` is driven by fuel
  `nodes.length + 1`: every iteration of the source loop with a non-empty
  candidate set removes at least one id from `not_finished`, and an
  iteration with an empty candidate set repeats forever unchanged, so the
  fuelled loop returns `some` exactly when the source loop terminates.
-/

set_option linter.unusedVariables false

namespace RustTasks

/-! ## Bytes and the backing store -/

/-- Byte vectors (`Vec<u8>` in the source). -/
abbrev Bytes := List Nat

/-- The backing filesystem: an association list from full file paths to the
bytes stored there.  Absent key = absent file. -/
abbrev Store := List (String × Bytes)

/-- Look a path up in the store (first binding wins; the store update
operations keep at most one binding per path). -/
def lookupS : Store → String → Option Bytes
  | [], _ => none
  | (q, b) :: rest, p => if q = p then some b else lookupS rest p

/-- Remove every binding for path p (fs::remove_file at the model level;
also used to keep at most one binding per path on overwrite). -/
def removeS : Store → String → Store
  | [], _ => []
  | (q, b) :: rest, p => if q = p then removeS rest p else (q, b) :: removeS rest p

/-! ## Targets: task_lib.rs, `impl Target for NullTarget` and
`impl Target for FileTarget` / `DatedFileTarget` -/

/-- The concrete target implementations of task_lib.rs, identified by the
backing artifact they address. -/
inductive TargetKind where
  | null : TargetKind
  | file (path : String) : TargetKind
  deriving DecidableEq

/-- Target::read.  NullTarget returns empty bytes; FileTarget reads the file
(fs::read fails when the file is absent). -/
def readT : TargetKind → Store → Option Bytes
  | .null, _ => some []
  | .file p, σ => lookupS σ p

/-- Target::write.  NullTarget is a no-op; FileTarget creates or overwrites
the file. -/
def writeT : TargetKind → Store → Bytes → Store
  | .null, σ, _ => σ
  | .file p, σ, b => (p, b) :: removeS σ p

/-- Target::exists.  NullTarget is always false; FileTarget tests file
presence.  (The source returns Result<bool>; these implementations never
error, so the embedding is a plain Bool.) -/
def existsT : TargetKind → Store → Bool
  | .null, _ => false
  | .file p, σ => (lookupS σ p).isSome

/-- Target::delete.  NullTarget is a no-op; FileTarget removes the file when
present and is a no-op otherwise. -/
def deleteT : TargetKind → Store → Store
  | .null, σ => σ
  | .file p, σ =>
    if (lookupS σ p).isSome then removeS σ p else σ

/-! ## Tasks: task_lib.rs, trait `Task` -/

/-- A task of task_lib.rs: a display name, the target returned by
`get_target`, the user computation `compute_output` (which may read the
store, and may fail), the `validate` hook (true = Ok), and the dependency
tasks (the values of `get_dep_tasks`, in some fixed iteration order). -/
inductive TTask where
  | mk (name : String) (target : TargetKind) (cpt : Store → Option Bytes)
      (vd : Bytes → Bool) (deps : List TTask)

def TTask.name : TTask → String | .mk n _ _ _ _ => n
def TTask.target : TTask → TargetKind | .mk _ t _ _ _ => t
def TTask.cpt : TTask → Store → Option Bytes | .mk _ _ c _ _ => c
def TTask.vd : TTask → Bytes → Bool | .mk _ _ _ v _ => v
def TTask.deps : TTask → List TTask | .mk _ _ _ _ ds => ds

/-- Task::get_data: read the task's own target. -/
def TTask.getData (t : TTask) (σ : Store) : Option Bytes :=
  readT t.target σ

/-- Errors surfaced by Task::run. -/
inductive TErr where
  | computeErr : TErr
  | validationErr : TErr
  deriving DecidableEq

/-- Outcome of Task::run: the result (`none` = Ok), the final store, and the
trace of `compute_output` invocations.  Each trace entry records the position
of the task in the dependency tree (`[]` is the root task; `pos ++ [i]` is
dependency number `i` of the task at `pos`) together with the store at the
moment `compute_output` was entered. -/
structure RunTrace where
  result : Option TErr
  store : Store
  calls : List (List Nat × Store)
  deriving DecidableEq

mutual
/-- Task::run (task_lib.rs): recursively run the dependencies in order,
aborting on the first error; then, if the target does not exist, call
`compute_output`, `validate` the data, and write it to the target. -/
def runT : TTask → Store → List Nat → RunTrace
  | .mk nm tg cpt vd ds, σ, pos =>
    let r := runDeps ds σ pos 0
    match r.result with
    | some e => r
    | none =>
      if existsT tg r.store then ⟨none, r.store, r.calls⟩
      else
        match cpt r.store with
        | none => ⟨some .computeErr, r.store, r.calls ++ [(pos, r.store)]⟩
        | some data =>
          if vd data then ⟨none, writeT tg r.store data, r.calls ++ [(pos, r.store)]⟩
          else ⟨some .validationErr, r.store, r.calls ++ [(pos, r.store)]⟩

/-- The dependency loop of Task::run (`for (_, dep) in self.get_dep_tasks()? {
dep.run()?; }`): run each dependency in order, threading the store, stopping
at the first error. -/
def runDeps : List TTask → Store → List Nat → Nat → RunTrace
  | [], σ, _, _ => ⟨none, σ, []⟩
  | d :: rest, σ, pos, i =>
    let r := runT d σ (pos ++ [i])
    match r.result with
    | some e => r
    | none =>
      let r2 := runDeps rest r.store pos (i + 1)
      ⟨r2.result, r2.store, r.calls ++ r2.calls⟩
end

mutual
/-- All file paths addressed by the targets of a task and its transitive
dependencies (the only paths Task::run can ever write). -/
def pathsT : TTask → List String
  | .mk _ tg _ _ ds =>
    (match tg with
     | .null => []
     | .file p => [p]) ++ pathsL ds

/-- All file paths addressed in a list of tasks. -/
def pathsL : List TTask → List String
  | [] => []
  | d :: rest => pathsT d ++ pathsL rest
end

/-! ## Scheduler: scheduler_ilb.rs, module `scheduler` -/

/-- A task as the scheduler observes it: the value of `get_target()?.exists()`
at DAG construction time, the success of `delete_data()` (true = Ok), and the
dependency tasks (the values of `get_dep_tasks()`, in some fixed order).  The
outcome of a dispatched `run_no_deps()` call is supplied separately to
`DAG.run` as an oracle keyed by node id, because `DAG::run` discards it. -/
inductive STask where
  | mk (exists0 : Bool) (deleteOk : Bool) (deps : List STask)

def STask.exists0 : STask → Bool | .mk e _ _ => e
def STask.deleteOk : STask → Bool | .mk _ d _ => d
def STask.deps : STask → List STask | .mk _ _ ds => ds

mutual
/-- Number of tasks in a dependency tree (used to size the worklist fuel of
DAG::new; the worklist processes exactly this many entries). -/
def countT : STask → Nat
  | .mk _ _ ds => 1 + countL ds

/-- Number of tasks in a list of dependency trees. -/
def countL : List STask → Nat
  | [] => 0
  | t :: ts => countT t + countL ts
end

/-- A scheduler node (struct `Node`): id, owned task, done flag, optional
parent id, child ids.  The extra field `targetPresent` records the backend
presence of this node's target artifact (what `exists` would report); it is
initialised from the construction-time `exists` observation and is consumed
only by `delete_all`, which deletes the artifact. -/
structure Node where
  id : Nat
  task : STask
  isDone : Bool
  parent : Option Nat
  children : List Nat
  targetPresent : Bool

/-- Struct `ChildData`: a dependency task together with its freshly minted id
and its parent's id. -/
structure ChildData where
  id : Nat
  task : STask
  parent : Nat

/-- Struct `NodeWithChildren`: a node plus the `ChildData` of its
dependencies, ready to be pushed on the worklist. -/
structure NodeWithChildren where
  node : Node
  children : List ChildData

/-- Enum `RunStyle`. -/
inductive RunStyle where
  | LOCAL : RunStyle
  | PARALLEL : RunStyle

/-- Struct `DAG`: the node arena.  The source stores nodes in a
`HashMap<Uuid, Node>`; the embedding keeps them in a list (ids are the keys,
and `DAG::new` mints distinct ids). -/
structure DAG where
  nodes : List Node

/-- `DAG::make_node`: observe `get_target()?.exists()` for the done flag,
collect the dependency tasks, mint a fresh id for each (the counter `ctr`
plays the role of `Uuid::new_v4`), and assemble the node. -/
def makeNode (task : STask) (parentId : Option Nat) (nodeId : Nat) (ctr : Nat) :
    NodeWithChildren × Nat :=
  let isDone := task.exists0
  let childTasks := task.deps
  let children := ((List.range childTasks.length).zip childTasks).map
    (fun pr => ChildData.mk (ctr + pr.1) pr.2 nodeId)
  let node : Node := ⟨nodeId, task, isDone, parentId, children.map ChildData.id, isDone⟩
  (⟨node, children⟩, ctr + childTasks.length)

/-- The worklist loop of `DAG::new` (`while let Some(child_data) =
to_process.pop()`).  The source pops from the end of a Vec and extends it
with the new children; the embedding keeps the worklist head-first, so
extend-then-pop becomes push-the-reversed-children-on-the-front.  The fuel
counts worklist pops; `DAG.new` supplies enough for the whole tree. -/
def newLoop : Nat → List ChildData → List Node → Nat → List Node
  | 0, _, processed, _ => processed
  | _ + 1, [], processed, _ => processed
  | fuel + 1, cd :: rest, processed, ctr =>
    let r := makeNode cd.task (some cd.parent) cd.id ctr
    newLoop fuel (r.1.children.reverse ++ rest) (processed ++ [r.1.node]) r.2

/-- `DAG::new`: make the head node (id 0, no parent), then drain the
worklist.  `countT head` pops suffice: the worklist processes each task of
the tree exactly once. -/
def DAG.new (head : STask) : DAG :=
  let r := makeNode head none 0 1
  ⟨newLoop (countT head) r.1.children.reverse [r.1.node] r.2⟩

/-- `self.nodes.get(&id)` of the source HashMap. -/
def findNode (d : DAG) (i : Nat) : Option Node :=
  d.nodes.find? (fun n => n.id == i)

/-- `DAG::get_run_candidates`: the ids in `not_finished` whose node exists,
is not done, and has no child in `not_finished` (empty intersection). -/
def getRunCandidates (d : DAG) (nf : List Nat) : List Nat :=
  nf.filter (fun i =>
    match findNode d i with
    | some n => !n.isDone && n.children.all (fun c => decide (c ∉ nf))
    | none => false)

/-- The post-dispatch marking of one node (`node.is_done = true` for each
candidate id; other nodes untouched). -/
def markFun (cs : List Nat) (n : Node) : Node :=
  if n.id ∈ cs then { n with isDone := true } else n

/-- The `for id in candidate_ids { ... node.is_done = true; ... }` loop of
`DAG::run`. -/
def markDone (d : DAG) (cs : List Nat) : DAG :=
  ⟨d.nodes.map (markFun cs)⟩

/-- The `while !not_finished.is_empty()` loop of `DAG::run`.  Each iteration
computes the candidate frontier, dispatches it under the chosen style
(`run_no_deps` outcomes are read from the oracle and discarded, mirroring
`let _ = node.task.run_no_deps().is_ok()`), marks the frontier done, and
moves it from `not_finished` to `finished`.  Returns the final DAG and the
sequence of dispatched frontiers; `none` models non-termination (fuel ran
out while `not_finished` was still non-empty). -/
def runLoop (style : RunStyle) (oc : Nat → Bool) :
    Nat → DAG → List Nat → List Nat → Option (DAG × List (List Nat))
  | fuel, d, fin, nf =>
    if nf.isEmpty then some (d, [])
    else
      match fuel with
      | 0 => none
      | fuel + 1 =>
        let cands := getRunCandidates d nf
        let _ := match style with
          | .LOCAL => cands.map oc
          | .PARALLEL => cands.map oc
        match runLoop style oc fuel (markDone d cands) (fin ++ cands)
            (nf.filter (fun i => decide (i ∉ cands))) with
        | none => none
        | some (d', fs) => some (d', cands :: fs)

/-- `DAG::run`: split the node ids into `finished` (done at entry) and
`not_finished`, then iterate.  Fuel `nodes.length + 1` is exact: an
iteration with a non-empty frontier removes at least one id from
`not_finished`, and an iteration with an empty frontier loops forever
unchanged, so the fuelled loop returns `some` exactly when the source loop
terminates (and the source then returns Ok(())). -/
def DAG.run (d : DAG) (style : RunStyle) (oc : Nat → Bool) :
    Option (DAG × List (List Nat)) :=
  let fin := (d.nodes.filter (fun n => n.isDone)).map Node.id
  let nf := (d.nodes.filter (fun n => !n.isDone)).map Node.id
  runLoop style oc (d.nodes.length + 1) d fin nf

/-- The observable effect of a successful `delete_data()` followed by
`node.is_done = false`. -/
def resetNode (n : Node) : Node :=
  { n with isDone := false, targetPresent := false }

/-- The node loop of `DAG::delete_all`: for each node in turn, delete its
target (aborting at once with Err on the first failure, via `?`), then clear
its done flag.  Returns (true, nodes) on success and (false, nodes) on
failure, with the nodes in their states at that moment. -/
def deleteAllNodes : List Node → Bool × List Node
  | [] => (true, [])
  | n :: rest =>
    if n.task.deleteOk then
      let r := deleteAllNodes rest
      (r.1, resetNode n :: r.2)
    else
      (false, n :: rest)

/-- `DAG::delete_all`. -/
def DAG.deleteAll (d : DAG) : Bool × DAG :=
  let r := deleteAllNodes d.nodes
  (r.1, ⟨r.2⟩)

/-! ## Concrete tasks and stores used by witnesses and counterexamples -/

/-- Head task whose single dependency's target already exists at
construction while its own does not. -/
def stC1head : STask := .mk false true [.mk true true []]

/-- The DAG built from stC1head: head node 0 (pending) with child node 1
(already done at construction). -/
def dagC1Ex : DAG := DAG.new stC1head

/-- The head node of dagC1Ex as constructed. -/
def nodeC1head : Node := ⟨0, stC1head, false, none, [1], false⟩

/-- The DAG dagC1Ex after running: both nodes done, one frontier [0]. -/
def dagC1Done : DAG :=
  ⟨[⟨0, stC1head, true, none, [1], false⟩,
    ⟨1, .mk true true [], true, some 0, [], true⟩]⟩

/-- Head task whose own target exists but whose dependency's delete_data
fails. -/
def dagC10W : DAG := DAG.new (.mk true true [.mk true false []])

/-- A wrapper-style dependency backed by the NullTarget. -/
def depNullEx : TTask := .mk "D" .null (fun _ => some []) (fun _ => true) []

/-- A task with a file target that depends on the null-target task. -/
def taskC6Ex : TTask := .mk "T" (.file "t.txt") (fun _ => some [1]) (fun _ => true) [depNullEx]

/-- A file-backed dependency that computes the byte 2. -/
def depFileEx : TTask := .mk "D" (.file "d.txt") (fun _ => some [2]) (fun _ => true) []

/-- A file-backed task depending on depFileEx. -/
def taskC6W : TTask := .mk "F" (.file "f.txt") (fun _ => some [1]) (fun _ => true) [depFileEx]

/-- A dependency-free file task computing the byte 1. -/
def taskC5W : TTask := .mk "T" (.file "t.txt") (fun _ => some [1]) (fun _ => true) []

/-- The validation-failure scenario of the source tests: compute produces 9
bytes, validate requires at least 1000. -/
def taskC7W : TTask :=
  .mk "V" (.file "v.txt") (fun _ => some [1, 1, 1, 1, 1, 1, 1, 1, 1])
    (fun b => decide (1000 ≤ b.length)) []

end RustTasks

namespace RustTasks

/-! ## Store lemmas -/

theorem lookupS_removeS_ne (σ : Store) (p q : String) (h : q ≠ p) :
    lookupS (removeS σ p) q = lookupS σ q := by
  induction σ with
  | nil => rfl
  | cons e rest ih =>
    cases e with
    | mk a b =>
      by_cases hp : a = p
      · simp [removeS, lookupS, hp, Ne.symm h, ih]
      · by_cases hq : a = q
        · simp [removeS, lookupS, hp, hq, h]
        · simp [removeS, lookupS, hp, hq, ih]

theorem lookupS_removeS_self (σ : Store) (p : String) :
    lookupS (removeS σ p) p = none := by
  induction σ with
  | nil => rfl
  | cons e rest ih =>
    cases e with
    | mk a b =>
      by_cases hp : a = p
      · simp [removeS, hp, ih]
      · simp [removeS, lookupS, hp, ih]

theorem lookupS_writeT_file_self (σ : Store) (p : String) (b : Bytes) :
    lookupS (writeT (.file p) σ b) p = some b := by
  simp [writeT, lookupS]

theorem lookupS_writeT_file_ne (σ : Store) (p q : String) (b : Bytes) (h : q ≠ p) :
    lookupS (writeT (.file p) σ b) q = lookupS σ q := by
  simp only [writeT, lookupS]
  rw [if_neg (by intro hq; exact h hq.symm)]
  exact lookupS_removeS_ne σ p q h

/-! ## Task::run lemmas -/

mutual
/-- Task::run never deletes and never overwrites a file that is present: a
path that is bound in the store keeps exactly its binding. -/
theorem runT_pres : ∀ (t : TTask) (σ : Store) (pos : List Nat) (p : String),
    (lookupS σ p).isSome = true → lookupS (runT t σ pos).store p = lookupS σ p
  | .mk nm tg cpt vd ds, σ, pos, p => fun h => by
    have hd := runDeps_pres ds σ pos 0 p h
    simp only [runT]
    cases hr : (runDeps ds σ pos 0).result with
    | some e => simpa [hr] using hd
    | none =>
      by_cases he : existsT tg (runDeps ds σ pos 0).store
      · simp [hr, he, hd]
      · cases hc : cpt (runDeps ds σ pos 0).store with
        | none => simp [hr, he, hc, hd]
        | some data =>
          by_cases hv : vd data
          · simp only [hr, he, hc, hv, Bool.false_eq_true, if_false, if_true]
            cases tg with
            | null => simpa [writeT] using hd
            | file q =>
              have hpq : p ≠ q := by
                intro hpq
                rw [hpq] at hd h
                rw [existsT, hd, h] at he
                exact he rfl
              rw [lookupS_writeT_file_ne _ q p _ hpq]
              exact hd
          · simp [hr, he, hc, hv, hd]

/-- The dependency loop of Task::run preserves bindings of present paths. -/
theorem runDeps_pres : ∀ (ds : List TTask) (σ : Store) (pos : List Nat) (i : Nat) (p : String),
    (lookupS σ p).isSome = true → lookupS (runDeps ds σ pos i).store p = lookupS σ p
  | [], σ, pos, i, p => fun h => rfl
  | d :: rest, σ, pos, i, p => fun h => by
    have h1 := runT_pres d σ (pos ++ [i]) p h
    simp only [runDeps]
    cases hr : (runT d σ (pos ++ [i])).result with
    | some e => simpa [hr] using h1
    | none =>
      have h2 : (lookupS (runT d σ (pos ++ [i])).store p).isSome = true := by
        rw [h1]; exact h
      have h3 := runDeps_pres rest (runT d σ (pos ++ [i])).store pos (i + 1) p h2
      simp [hr, h3, h1]
end

mutual
/-- Every compute_output invocation recorded by Task::run at position pos
sits at pos or below it. -/
theorem runT_calls_ge : ∀ (t : TTask) (σ : Store) (pos : List Nat),
    ∀ e ∈ (runT t σ pos).calls, pos.length ≤ e.1.length
  | .mk nm tg cpt vd ds, σ, pos => by
    have hd := runDeps_calls_gt ds σ pos 0
    simp only [runT]
    cases hr : (runDeps ds σ pos 0).result with
    | some e =>
      intro e' he'
      simp only [hr] at he'
      exact le_of_lt (hd e' he')
    | none =>
      by_cases he : existsT tg (runDeps ds σ pos 0).store
      · intro e' he'
        simp only [hr, he, if_true] at he'
        exact le_of_lt (hd e' he')
      · cases hc : cpt (runDeps ds σ pos 0).store with
        | none =>
          intro e' he'
          simp only [hr, he, hc, Bool.false_eq_true, if_false] at he'
          rcases List.mem_append.mp he' with h1 | h1
          · exact le_of_lt (hd e' h1)
          · rcases List.mem_singleton.mp h1 with rfl
            exact le_refl _
        | some data =>
          by_cases hv : vd data
          · intro e' he'
            simp only [hr, he, hc, hv, Bool.false_eq_true, if_false, if_true] at he'
            rcases List.mem_append.mp he' with h1 | h1
            · exact le_of_lt (hd e' h1)
            · rcases List.mem_singleton.mp h1 with rfl
              exact le_refl _
          · intro e' he'
            simp only [hr, he, hc, hv, Bool.false_eq_true, if_false] at he'
            rcases List.mem_append.mp he' with h1 | h1
            · exact le_of_lt (hd e' h1)
            · rcases List.mem_singleton.mp h1 with rfl
              exact le_refl _

/-- Every compute_output invocation recorded by the dependency loop sits
strictly below the caller's position. -/
theorem runDeps_calls_gt : ∀ (ds : List TTask) (σ : Store) (pos : List Nat) (i : Nat),
    ∀ e ∈ (runDeps ds σ pos i).calls, pos.length < e.1.length
  | [], σ, pos, i => by
    intro e he
    simp only [runDeps] at he
    exact absurd he (List.not_mem_nil e)
  | d :: rest, σ, pos, i => by
    have h1 := runT_calls_ge d σ (pos ++ [i])
    have hlen : pos.length < (pos ++ [i]).length := by
      simp
    simp only [runDeps]
    cases hr : (runT d σ (pos ++ [i])).result with
    | some e =>
      intro e' he'
      simp only [hr] at he'
      exact lt_of_lt_of_le hlen (h1 e' he')
    | none =>
      intro e' he'
      simp only [hr] at he'
      rcases List.mem_append.mp he' with h2 | h2
      · exact lt_of_lt_of_le hlen (h1 e' h2)
      · exact runDeps_calls_gt rest (runT d σ (pos ++ [i])).store pos (i + 1) e' h2
end

/-- If Task::run succeeds for a task with a file-backed target, that target
exists in the resulting store. -/
theorem runT_ok_file_exists (t : TTask) (σ : Store) (pos : List Nat) (p : String)
    (htg : t.target = .file p) (hok : (runT t σ pos).result = none) :
    existsT (.file p) (runT t σ pos).store = true := by
  obtain ⟨nm, tg, cpt, vd, ds⟩ := t
  simp only [TTask.target] at htg
  subst htg
  simp only [runT] at hok ⊢
  cases hr : (runDeps ds σ pos 0).result with
  | some e => simp [hr] at hok
  | none =>
    by_cases he : existsT (.file p) (runDeps ds σ pos 0).store
    · simpa [hr, he] using he
    · cases hc : cpt (runDeps ds σ pos 0).store with
      | none => simp [hr, he, hc] at hok
      | some data =>
        by_cases hv : vd data
        · simp only [hr, he, hc, hv, Bool.false_eq_true, if_false, if_true]
          simp [existsT, lookupS_writeT_file_self]
        · simp [hr, he, hc, hv] at hok

/-- If the dependency loop succeeds, every file-backed dependency target
exists in the resulting store. -/
theorem runDeps_ok_deps_exist (ds : List TTask) (σ : Store) (pos : List Nat) (i : Nat)
    (hok : (runDeps ds σ pos i).result = none) :
    ∀ d ∈ ds, ∀ p, d.target = .file p →
      existsT (.file p) (runDeps ds σ pos i).store = true := by
  induction ds generalizing σ i with
  | nil =>
    intro d hd
    exact absurd hd (List.not_mem_nil d)
  | cons d₀ rest ih =>
    intro d hd p htg
    simp only [runDeps] at hok ⊢
    cases hr : (runT d₀ σ (pos ++ [i])).result with
    | some e => simp [hr] at hok
    | none =>
      simp only [hr] at hok ⊢
      rcases List.mem_cons.mp hd with rfl | hmem
      · have h1 := runT_ok_file_exists d σ (pos ++ [i]) p htg hr
        have h2 : (lookupS (runT d σ (pos ++ [i])).store p).isSome = true := by
          simpa [existsT] using h1
        have h3 := runDeps_pres rest (runT d σ (pos ++ [i])).store pos (i + 1) p h2
        simp only [existsT]
        rw [h3]
        exact h2
      · exact ih (runT d₀ σ (pos ++ [i])).store (i + 1) hok d hmem p htg

mutual
/-- Task::run writes only to paths addressed by the task tree: any other
path keeps its binding. -/
theorem runT_paths : ∀ (t : TTask) (σ : Store) (pos : List Nat) (p : String),
    p ∉ pathsT t → lookupS (runT t σ pos).store p = lookupS σ p
  | .mk nm tg cpt vd ds, σ, pos, p => fun hp => by
    have hpd : p ∉ pathsL ds := by
      intro hmem
      exact hp (by simp [pathsT, hmem])
    have hd := runDeps_paths ds σ pos 0 p hpd
    simp only [runT]
    cases hr : (runDeps ds σ pos 0).result with
    | some e => simpa [hr] using hd
    | none =>
      by_cases he : existsT tg (runDeps ds σ pos 0).store
      · simp [hr, he, hd]
      · cases hc : cpt (runDeps ds σ pos 0).store with
        | none => simp [hr, he, hc, hd]
        | some data =>
          by_cases hv : vd data
          · simp only [hr, he, hc, hv, Bool.false_eq_true, if_false, if_true]
            cases tg with
            | null => simpa [writeT] using hd
            | file q =>
              have hpq : p ≠ q := by
                intro hpq
                exact hp (by simp [pathsT, hpq])
              rw [lookupS_writeT_file_ne _ q p _ hpq]
              exact hd
          · simp [hr, he, hc, hv, hd]

/-- The dependency loop writes only to paths addressed by the dependency
trees. -/
theorem runDeps_paths : ∀ (ds : List TTask) (σ : Store) (pos : List Nat) (i : Nat) (p : String),
    p ∉ pathsL ds → lookupS (runDeps ds σ pos i).store p = lookupS σ p
  | [], σ, pos, i, p => fun _ => rfl
  | d :: rest, σ, pos, i, p => fun hp => by
    have hp1 : p ∉ pathsT d := by
      intro hmem
      exact hp (by simp [pathsL, hmem])
    have hp2 : p ∉ pathsL rest := by
      intro hmem
      exact hp (by simp [pathsL, hmem])
    have h1 := runT_paths d σ (pos ++ [i]) p hp1
    simp only [runDeps]
    cases hr : (runT d σ (pos ++ [i])).result with
    | some e => simpa [hr] using h1
    | none =>
      have h3 := runDeps_paths rest (runT d σ (pos ++ [i])).store pos (i + 1) p hp2
      simp [hr, h3, h1]
end

/-! ## Claim C5: cache reuse -/

/-- Claim C5: if a task's target exists at the moment Task::run is invoked,
the task's own compute_output is not called during that run (no call trace
entry at the root position), and the bytes stored at the task's target are
left unchanged. -/
theorem c5_cache_reuse (t : TTask) (σ : Store)
    (h : existsT t.target σ = true) :
    (∀ e ∈ (runT t σ []).calls, e.1 ≠ ([] : List Nat)) ∧
    (∀ p, t.target = .file p → lookupS (runT t σ []).store p = lookupS σ p) := by
  constructor
  · obtain ⟨nm, tg, cpt, vd, ds⟩ := t
    simp only [TTask.target] at h
    have hd := runDeps_calls_gt ds σ [] 0
    have hpres : ∀ p, tg = .file p → (lookupS σ p).isSome = true := by
      intro p hp
      rw [hp] at h
      simpa [existsT] using h
    have hex : existsT tg (runDeps ds σ [] 0).store = true := by
      cases tg with
      | null => simpa [existsT] using h
      | file p =>
        have h1 := runDeps_pres ds σ [] 0 p (hpres p rfl)
        simp only [existsT] at h ⊢
        rw [h1]
        exact h
    simp only [runT]
    cases hr : (runDeps ds σ [] 0).result with
    | some e =>
      intro e' he'
      simp only [hr] at he'
      have := hd e' he'
      intro hnil
      rw [hnil] at this
      simp at this
    | none =>
      intro e' he'
      simp only [hr, hex, if_true] at he'
      have := hd e' he'
      intro hnil
      rw [hnil] at this
      simp at this
  · intro p hp
    have : (lookupS σ p).isSome = true := by
      rw [hp] at h
      simpa [existsT] using h
    exact runT_pres t σ [] p this

/-- Witness for c5_cache_reuse: a dependency-free file task whose target is
already cached.  Its compute_output is not invoked and the cached bytes are
kept. -/
theorem c5_cache_reuse_witness :
    existsT taskC5W.target [("t.txt", [9])] = true ∧
    ((∀ e ∈ (runT taskC5W [("t.txt", [9])] []).calls, e.1 ≠ ([] : List Nat)) ∧
     (∀ p, taskC5W.target = .file p →
        lookupS (runT taskC5W [("t.txt", [9])] []).store p = lookupS [("t.txt", [9])] p)) :=
  ⟨by decide, c5_cache_reuse taskC5W [("t.txt", [9])] (by decide)⟩

/-! ## Claim C6: dependency-first order -/

/-- Claim C6 as stated says that when a task's compute is entered, every
dependency's target exists.  It fails for a wrapper dependency backed by the
NullTarget: after the dependency runs, its target still does not exist
(NullTarget::exists is permanently false), yet the parent's compute is
entered.  Here the parent taskC6Ex is run on the empty store, its compute is
entered with the store still empty, and its dependency's target does not
exist there. -/
theorem c6_dependency_first_counterexample :
    (([] : List Nat), ([] : Store)) ∈ (runT taskC6Ex [] []).calls ∧
    depNullEx ∈ taskC6Ex.deps ∧
    existsT depNullEx.target [] = false := by
  refine ⟨by decide, ?_, by decide⟩
  show depNullEx ∈ [depNullEx]
  exact List.mem_singleton_self _

/-- Claim C6 (amended): when a task's compute_output is entered by Task::run,
every dependency whose target is file-backed exists at that moment; a
dependency backed by the NullTarget never exists, before or after its run. -/
theorem c6_dependency_first_amended (t : TTask) (σ st : Store)
    (hcall : (([] : List Nat), st) ∈ (runT t σ []).calls) :
    ∀ d ∈ t.deps, ∀ p, d.target = .file p → existsT (.file p) st = true := by
  obtain ⟨nm, tg, cpt, vd, ds⟩ := t
  simp only [TTask.deps]
  have hd := runDeps_calls_gt ds σ [] 0
  have hnotdep : ∀ st', (([] : List Nat), st') ∉ (runDeps ds σ [] 0).calls := by
    intro st' hmem
    have := hd _ hmem
    simp at this
  simp only [runT] at hcall
  cases hr : (runDeps ds σ [] 0).result with
  | some e =>
    simp only [hr] at hcall
    exact absurd hcall (hnotdep st)
  | none =>
    simp only [hr] at hcall
    by_cases he : existsT tg (runDeps ds σ [] 0).store = true
    · simp only [he, if_true] at hcall
      exact absurd hcall (hnotdep st)
    · rw [if_neg he] at hcall
      have hst : st = (runDeps ds σ [] 0).store := by
        cases hc : cpt (runDeps ds σ [] 0).store with
        | none =>
          simp only [hc] at hcall
          rcases List.mem_append.mp hcall with h1 | h1
          · exact absurd h1 (hnotdep st)
          · exact congrArg Prod.snd (List.mem_singleton.mp h1)
        | some data =>
          simp only [hc] at hcall
          by_cases hv : vd data = true
          · rw [if_pos hv] at hcall
            rcases List.mem_append.mp hcall with h1 | h1
            · exact absurd h1 (hnotdep st)
            · exact congrArg Prod.snd (List.mem_singleton.mp h1)
          · rw [if_neg hv] at hcall
            rcases List.mem_append.mp hcall with h1 | h1
            · exact absurd h1 (hnotdep st)
            · exact congrArg Prod.snd (List.mem_singleton.mp h1)
      rw [hst]
      exact runDeps_ok_deps_exist ds σ [] 0 hr

/-- Witness for c6_dependency_first_amended: a file-backed parent with a
file-backed dependency; at the parent's compute entry the dependency's file
exists. -/
theorem c6_dependency_first_amended_witness :
    (([] : List Nat), [("d.txt", [2])]) ∈ (runT taskC6W [] []).calls ∧
    existsT (.file "d.txt") [("d.txt", [2])] = true :=
  ⟨by decide,
   c6_dependency_first_amended taskC6W [] [("d.txt", [2])] (by decide) depFileEx
     (List.mem_singleton_self _) "d.txt" rfl⟩

/-! ## Claim C7: validation failure leaves the target untouched -/

/-- Claim C7: if the freshly computed output of a task is rejected by
validate during Task::run, the run returns the validation error and the
task's target is not written: its binding in the store (present bytes or
absence) is exactly what it was before the run.  The last hypothesis is the
no-collision requirement of the design: no dependency addresses the task's
own file. -/
theorem c7_validate_failure_no_write (t : TTask) (σ : Store) (data : Bytes)
    (hdeps : (runDeps t.deps σ [] 0).result = none)
    (hex : existsT t.target (runDeps t.deps σ [] 0).store = false)
    (hcpt : t.cpt (runDeps t.deps σ [] 0).store = some data)
    (hvd : t.vd data = false)
    (hdisj : ∀ q, t.target = .file q → q ∉ pathsL t.deps) :
    (runT t σ []).result = some .validationErr ∧
    (∀ q, t.target = .file q → lookupS (runT t σ []).store q = lookupS σ q) := by
  obtain ⟨nm, tg, cpt, vd, ds⟩ := t
  simp only [TTask.deps, TTask.target, TTask.cpt, TTask.vd] at hdeps hex hcpt hvd hdisj
  constructor
  · simp [runT, hdeps, hex, hcpt, hvd]
  · intro q hq
    simp only [TTask.target] at hq
    have hstore : (runT (.mk nm tg cpt vd ds) σ []).store = (runDeps ds σ [] 0).store := by
      simp [runT, hdeps, hex, hcpt, hvd]
    rw [hstore]
    exact runDeps_paths ds σ [] 0 q (hdisj q hq)

/-- Witness for c7_validate_failure_no_write: the validation scenario of the
source tests (compute produces 9 bytes, validate demands at least 1000); run
fails with the validation error and the file stays absent. -/
theorem c7_validate_failure_no_write_witness :
    ((runDeps taskC7W.deps [] [] 0).result = none ∧
     existsT taskC7W.target (runDeps taskC7W.deps [] [] 0).store = false ∧
     taskC7W.cpt (runDeps taskC7W.deps [] [] 0).store = some [1, 1, 1, 1, 1, 1, 1, 1, 1] ∧
     taskC7W.vd [1, 1, 1, 1, 1, 1, 1, 1, 1] = false) ∧
    ((runT taskC7W [] []).result = some .validationErr ∧
     (∀ q, taskC7W.target = .file q → lookupS (runT taskC7W [] []).store q = lookupS [] q)) :=
  ⟨⟨by decide, by decide, by decide, by decide⟩,
   c7_validate_failure_no_write taskC7W [] [1, 1, 1, 1, 1, 1, 1, 1, 1]
     (by decide) (by decide) (by decide) (by decide)
     (by intro q hq; simp [taskC7W, TTask.deps, pathsL])⟩

/-! ## Claim C8: target write / read / delete round trips -/

/-- Claim C8 as stated quantifies over every target.  It fails on the
NullTarget: write is a no-op, so after writing the single byte 1, read
returns the empty byte vector (not the written bytes) and exists is still
false. -/
theorem c8_target_roundtrip_counterexample :
    ¬ (readT .null (writeT .null [] [1]) = some [1] ∧
       existsT .null (writeT .null [] [1]) = true) := by
  decide

/-- Claim C8 (amended): for every file-backed target (FileTarget or
DatedFileTarget at its effective path) and byte vector, write followed by
read returns the written bytes, write followed by exists is true, and write
followed by delete followed by exists is false; the null target instead
ignores writes, reads back empty bytes, never exists, and its delete is a
no-op that always succeeds. -/
theorem c8_target_roundtrip_amended (p : String) (σ : Store) (b : Bytes) :
    readT (.file p) (writeT (.file p) σ b) = some b ∧
    existsT (.file p) (writeT (.file p) σ b) = true ∧
    existsT (.file p) (deleteT (.file p) (writeT (.file p) σ b)) = false ∧
    readT .null (writeT .null σ b) = some [] ∧
    existsT .null (writeT .null σ b) = false ∧
    deleteT .null σ = σ := by
  refine ⟨lookupS_writeT_file_self σ p b, ?_, ?_, rfl, rfl, rfl⟩
  · simp [existsT, lookupS_writeT_file_self]
  · simp [existsT, deleteT, writeT, lookupS, removeS, lookupS_removeS_self]

/-! ## Scheduler lemmas -/

theorem markFun_id (cs : List Nat) (n : Node) : (markFun cs n).id = n.id := by
  unfold markFun
  split <;> rfl

theorem markFun_children (cs : List Nat) (n : Node) :
    (markFun cs n).children = n.children := by
  unfold markFun
  split <;> rfl

theorem markFun_task (cs : List Nat) (n : Node) : (markFun cs n).task = n.task := by
  unfold markFun
  split <;> rfl

theorem markFun_isDone (cs : List Nat) (n : Node) :
    (markFun cs n).isDone = (n.isDone || decide (n.id ∈ cs)) := by
  unfold markFun
  split
  next h => simp [h]
  next h => simp [h]

theorem markDone_map_id (d : DAG) (cs : List Nat) :
    (markDone d cs).nodes.map Node.id = d.nodes.map Node.id := by
  simp only [markDone, List.map_map]
  exact List.map_congr_left (fun n _ => markFun_id cs n)

theorem markDone_inv (d : DAG) (cs nf : List Nat)
    (hinv : ∀ n ∈ d.nodes, (n.isDone = false ↔ n.id ∈ nf)) :
    ∀ n ∈ (markDone d cs).nodes,
      (n.isDone = false ↔ n.id ∈ nf.filter (fun i => decide (i ∉ cs))) := by
  intro n' hn'
  rcases List.mem_map.mp hn' with ⟨n, hn, rfl⟩
  rw [markFun_isDone, markFun_id]
  constructor
  · intro h
    rcases Bool.or_eq_false_iff.mp h with ⟨h1, h2⟩
    refine List.mem_filter.mpr ⟨(hinv n hn).mp h1, ?_⟩
    simpa using h2
  · intro h
    obtain ⟨h1, h2⟩ := List.mem_filter.mp h
    have h3 : n.isDone = false := (hinv n hn).mpr h1
    have h4 : n.id ∉ cs := by simpa using h2
    simp [h3, h4]

theorem markDone_inv_fwd (d : DAG) (cs nf : List Nat)
    (hinv : ∀ n ∈ d.nodes, n.isDone = false → n.id ∈ nf) :
    ∀ n ∈ (markDone d cs).nodes, n.isDone = false →
      n.id ∈ nf.filter (fun i => decide (i ∉ cs)) := by
  intro n' hn' h
  rcases List.mem_map.mp hn' with ⟨n, hn, rfl⟩
  rw [markFun_isDone] at h
  rcases Bool.or_eq_false_iff.mp h with ⟨h1, h2⟩
  rw [markFun_id]
  refine List.mem_filter.mpr ⟨hinv n hn h1, ?_⟩
  simpa using h2

theorem markDone_wf (d : DAG) (cs : List Nat)
    (hwf : ∀ n ∈ d.nodes, ∀ c ∈ n.children, ∃ m ∈ d.nodes, m.id = c) :
    ∀ n ∈ (markDone d cs).nodes, ∀ c ∈ n.children,
      ∃ m ∈ (markDone d cs).nodes, m.id = c := by
  intro n' hn' c hc
  rcases List.mem_map.mp hn' with ⟨n, hn, rfl⟩
  rw [markFun_children] at hc
  obtain ⟨m, hm, hmid⟩ := hwf n hn c hc
  exact ⟨markFun cs m, List.mem_map_of_mem _ hm, by rw [markFun_id]; exact hmid⟩

theorem find?_id_self :
    ∀ (l : List Node), (l.map Node.id).Nodup →
      ∀ n ∈ l, l.find? (fun m => m.id == n.id) = some n := by
  intro l
  induction l with
  | nil =>
    intro _ n hn
    exact absurd hn (List.not_mem_nil n)
  | cons a rest ih =>
    intro hnd n hn
    have hnd2 : a.id ∉ rest.map Node.id ∧ (rest.map Node.id).Nodup := by
      rw [List.map_cons] at hnd
      exact List.nodup_cons.mp hnd
    rcases List.mem_cons.mp hn with rfl | hmem
    · simp [List.find?]
    · have hne : (a.id == n.id) = false := by
        rw [beq_eq_false_iff_ne]
        intro he
        have h1 : n.id ∈ rest.map Node.id := List.mem_map_of_mem Node.id hmem
        have h2 := hnd2.1
        rw [he] at h2
        exact h2 h1
      rw [List.find?_cons_of_neg _ (by simp [hne]), ih hnd2.2 n hmem]

theorem findNode_self (d : DAG) (hnd : (d.nodes.map Node.id).Nodup) :
    ∀ n ∈ d.nodes, findNode d n.id = some n :=
  fun n hn => find?_id_self d.nodes hnd n hn

theorem getRunCandidates_sub (d : DAG) (nf : List Nat) :
    ∀ i ∈ getRunCandidates d nf, i ∈ nf :=
  fun i hi => (List.mem_filter.mp hi).1

theorem getRunCandidates_spec (d : DAG) (nf : List Nat) (i : Nat)
    (hi : i ∈ getRunCandidates d nf) :
    i ∈ nf ∧ ∃ n, findNode d i = some n ∧ n.isDone = false ∧
      ∀ c ∈ n.children, c ∉ nf := by
  obtain ⟨h1, h2⟩ := List.mem_filter.mp hi
  refine ⟨h1, ?_⟩
  cases hf : findNode d i with
  | none =>
    rw [hf] at h2
    simp at h2
  | some n =>
    rw [hf] at h2
    simp only [Bool.and_eq_true, Bool.not_eq_true', List.all_eq_true,
      decide_eq_true_eq] at h2
    exact ⟨n, rfl, h2.1, h2.2⟩

theorem runLoop_oc_irrel (style : RunStyle) (oc oc' : Nat → Bool) :
    ∀ (fuel : Nat) (d : DAG) (fin nf : List Nat),
      runLoop style oc fuel d fin nf = runLoop style oc' fuel d fin nf := by
  intro fuel
  induction fuel with
  | zero =>
    intro d fin nf
    simp [runLoop]
  | succ m ih =>
    intro d fin nf
    simp only [runLoop]
    rw [ih]

theorem runLoop_all_done (style : RunStyle) (oc : Nat → Bool) :
    ∀ (fuel : Nat) (d : DAG) (fin nf : List Nat) (d' : DAG) (fs : List (List Nat)),
      (∀ n ∈ d.nodes, n.isDone = false → n.id ∈ nf) →
      runLoop style oc fuel d fin nf = some (d', fs) →
      ∀ n ∈ d'.nodes, n.isDone = true := by
  intro fuel
  induction fuel with
  | zero =>
    intro d fin nf d' fs hinv hrun n hn
    simp only [runLoop] at hrun
    by_cases hemp : nf.isEmpty
    · rw [if_pos hemp] at hrun
      simp only [Option.some.injEq, Prod.mk.injEq] at hrun
      obtain ⟨rfl, rfl⟩ := hrun
      by_contra hne
      have hfalse : n.isDone = false := by
        cases hd : n.isDone
        · rfl
        · exact absurd hd hne
      have := hinv n hn hfalse
      rw [List.isEmpty_iff.mp hemp] at this
      exact absurd this (List.not_mem_nil _)
    · rw [if_neg hemp] at hrun
      exact absurd hrun (by simp)
  | succ m ih =>
    intro d fin nf d' fs hinv hrun n hn
    simp only [runLoop] at hrun
    by_cases hemp : nf.isEmpty
    · rw [if_pos hemp] at hrun
      simp only [Option.some.injEq, Prod.mk.injEq] at hrun
      obtain ⟨rfl, rfl⟩ := hrun
      by_contra hne
      have hfalse : n.isDone = false := by
        cases hd : n.isDone
        · rfl
        · exact absurd hd hne
      have := hinv n hn hfalse
      rw [List.isEmpty_iff.mp hemp] at this
      exact absurd this (List.not_mem_nil _)
    · rw [if_neg hemp] at hrun
      cases hrec : runLoop style oc m (markDone d (getRunCandidates d nf))
          (fin ++ getRunCandidates d nf)
          (nf.filter (fun i => decide (i ∉ getRunCandidates d nf))) with
      | none =>
        rw [hrec] at hrun
        exact absurd hrun (by simp)
      | some pr =>
        obtain ⟨dd, ff⟩ := pr
        rw [hrec] at hrun
        simp only [Option.some.injEq, Prod.mk.injEq] at hrun
        obtain ⟨h1, h2⟩ := hrun
        subst h1
        exact ih (markDone d (getRunCandidates d nf)) (fin ++ getRunCandidates d nf)
          (nf.filter (fun i => decide (i ∉ getRunCandidates d nf))) dd ff
          (markDone_inv_fwd d (getRunCandidates d nf) nf hinv)
          hrec n hn

theorem runLoop_dispatched_sub (style : RunStyle) (oc : Nat → Bool) :
    ∀ (fuel : Nat) (d : DAG) (fin nf : List Nat) (d' : DAG) (fs : List (List Nat)),
      runLoop style oc fuel d fin nf = some (d', fs) →
      ∀ f ∈ fs, ∀ i ∈ f, i ∈ nf := by
  intro fuel
  induction fuel with
  | zero =>
    intro d fin nf d' fs hrun f hf i hi
    simp only [runLoop] at hrun
    by_cases hemp : nf.isEmpty
    · rw [if_pos hemp] at hrun
      simp only [Option.some.injEq, Prod.mk.injEq] at hrun
      obtain ⟨rfl, rfl⟩ := hrun
      exact absurd hf (List.not_mem_nil f)
    · rw [if_neg hemp] at hrun
      exact absurd hrun (by simp)
  | succ m ih =>
    intro d fin nf d' fs hrun f hf i hi
    simp only [runLoop] at hrun
    by_cases hemp : nf.isEmpty
    · rw [if_pos hemp] at hrun
      simp only [Option.some.injEq, Prod.mk.injEq] at hrun
      obtain ⟨rfl, rfl⟩ := hrun
      exact absurd hf (List.not_mem_nil f)
    · rw [if_neg hemp] at hrun
      cases hrec : runLoop style oc m (markDone d (getRunCandidates d nf))
          (fin ++ getRunCandidates d nf)
          (nf.filter (fun i => decide (i ∉ getRunCandidates d nf))) with
      | none =>
        rw [hrec] at hrun
        exact absurd hrun (by simp)
      | some pr =>
        obtain ⟨dd, ff⟩ := pr
        rw [hrec] at hrun
        simp only [Option.some.injEq, Prod.mk.injEq] at hrun
        obtain ⟨h1, h2⟩ := hrun
        rw [← h2] at hf
        rcases List.mem_cons.mp hf with rfl | hmem
        · exact getRunCandidates_sub d nf i hi
        · have := ih (markDone d (getRunCandidates d nf)) (fin ++ getRunCandidates d nf)
            (nf.filter (fun i => decide (i ∉ getRunCandidates d nf))) dd ff
            hrec f hmem i hi
          exact (List.mem_filter.mp this).1

theorem runLoop_frontier_order (style : RunStyle) (oc : Nat → Bool) :
    ∀ (fuel : Nat) (d : DAG) (fin nf : List Nat) (d' : DAG) (fs : List (List Nat)),
      (d.nodes.map Node.id).Nodup →
      (∀ n ∈ d.nodes, ∀ c ∈ n.children, ∃ m ∈ d.nodes, m.id = c) →
      (∀ n ∈ d.nodes, (n.isDone = false ↔ n.id ∈ nf)) →
      runLoop style oc fuel d fin nf = some (d', fs) →
      ∀ k f, fs[k]? = some f → ∀ i ∈ f, ∀ n ∈ d.nodes, n.id = i →
        ∀ c ∈ n.children,
          (∃ m ∈ d.nodes, m.id = c ∧ m.isDone = true) ∨
          (∃ j : Nat, ∃ f' : List Nat, j < k ∧ fs[j]? = some f' ∧ c ∈ f') := by
  intro fuel
  induction fuel with
  | zero =>
    intro d fin nf d' fs hnd hwf hinv hrun k f hk
    simp only [runLoop] at hrun
    by_cases hemp : nf.isEmpty
    · rw [if_pos hemp] at hrun
      simp only [Option.some.injEq, Prod.mk.injEq] at hrun
      obtain ⟨rfl, rfl⟩ := hrun
      rw [List.getElem?_nil] at hk
      exact absurd hk (by simp)
    · rw [if_neg hemp] at hrun
      exact absurd hrun (by simp)
  | succ m ih =>
    intro d fin nf d' fs hnd hwf hinv hrun k f hk i hi n hn hni c hc
    simp only [runLoop] at hrun
    by_cases hemp : nf.isEmpty
    · rw [if_pos hemp] at hrun
      simp only [Option.some.injEq, Prod.mk.injEq] at hrun
      obtain ⟨rfl, rfl⟩ := hrun
      rw [List.getElem?_nil] at hk
      exact absurd hk (by simp)
    · rw [if_neg hemp] at hrun
      cases hrec : runLoop style oc m (markDone d (getRunCandidates d nf))
          (fin ++ getRunCandidates d nf)
          (nf.filter (fun x => decide (x ∉ getRunCandidates d nf))) with
      | none =>
        rw [hrec] at hrun
        exact absurd hrun (by simp)
      | some pr =>
        obtain ⟨dd, ff⟩ := pr
        rw [hrec] at hrun
        simp only [Option.some.injEq, Prod.mk.injEq] at hrun
        obtain ⟨h1, h2⟩ := hrun
        subst h1
        rw [← h2] at hk
        cases k with
        | zero =>
          rw [List.getElem?_cons_zero] at hk
          have hf : f = getRunCandidates d nf := by
            injection hk with hk'
            exact hk'.symm
          rw [hf] at hi
          obtain ⟨hinf, n₀, hfind, hn₀d, hch⟩ := getRunCandidates_spec d nf i hi
          have hfn : findNode d n.id = some n := findNode_self d hnd n hn
          rw [hni] at hfn
          rw [hfn] at hfind
          injection hfind with heq
          subst heq
          obtain ⟨mm, hmm, hmmid⟩ := hwf n hn c hc
          left
          refine ⟨mm, hmm, hmmid, ?_⟩
          cases hmd : mm.isDone
          · have : mm.id ∈ nf := (hinv mm hmm).mp hmd
            rw [hmmid] at this
            exact absurd this (hch c hc)
          · rfl
        | succ k' =>
          rw [List.getElem?_cons_succ] at hk
          have hres := ih (markDone d (getRunCandidates d nf))
            (fin ++ getRunCandidates d nf)
            (nf.filter (fun x => decide (x ∉ getRunCandidates d nf))) dd ff
            (by rw [markDone_map_id]; exact hnd)
            (markDone_wf d (getRunCandidates d nf) hwf)
            (markDone_inv d (getRunCandidates d nf) nf hinv)
            hrec k' f hk i hi (markFun (getRunCandidates d nf) n)
            (List.mem_map_of_mem _ hn)
            (by rw [markFun_id]; exact hni) c
            (by rw [markFun_children]; exact hc)
          rcases hres with ⟨mm, hmm, hmmid, hmmd⟩ | ⟨j, f', hj, hjf, hcf⟩
          · rcases List.mem_map.mp hmm with ⟨m₀, hm₀, rfl⟩
            rw [markFun_id] at hmmid
            rw [markFun_isDone] at hmmd
            rcases Bool.or_eq_true_iff.mp hmmd with hdone | hcand
            · left
              exact ⟨m₀, hm₀, hmmid, hdone⟩
            · right
              refine ⟨0, getRunCandidates d nf, Nat.zero_lt_succ k', ?_, ?_⟩
              · rw [← h2, List.getElem?_cons_zero]
              · rw [← hmmid]
                exact of_decide_eq_true hcand
          · right
            refine ⟨j + 1, f', Nat.succ_lt_succ hj, ?_, hcf⟩
            rw [← h2, List.getElem?_cons_succ]
            exact hjf

/-- Invariant at DAG.run entry: a node is not done exactly when its id is in
the initial not_finished list (the reverse direction needs distinct ids). -/
theorem dagRun_init_inv (d : DAG) (hnd : (d.nodes.map Node.id).Nodup) :
    ∀ n ∈ d.nodes,
      (n.isDone = false ↔ n.id ∈ (d.nodes.filter (fun n => !n.isDone)).map Node.id) := by
  intro n hn
  constructor
  · intro h
    exact List.mem_map_of_mem _ (List.mem_filter.mpr ⟨hn, by simp [h]⟩)
  · intro h
    rcases List.mem_map.mp h with ⟨m, hm, hid⟩
    obtain ⟨hm₀, hmd⟩ := List.mem_filter.mp hm
    have : m = n := List.inj_on_of_nodup_map hnd hm₀ hn hid
    rw [← this]
    simpa using hmd

theorem dagRun_init_inv_fwd (d : DAG) :
    ∀ n ∈ d.nodes, n.isDone = false →
      n.id ∈ (d.nodes.filter (fun n => !n.isDone)).map Node.id := by
  intro n hn h
  exact List.mem_map_of_mem _ (List.mem_filter.mpr ⟨hn, by simp [h]⟩)

/-! ## Claim C1: frontier correctness -/

/-- Claim C1 as stated requires every child of a node dispatched in frontier
k to have been dispatched in some frontier before k.  It fails when the
child was already done at construction: in dagC1Ex the child node (id 1) is
done at construction, the head (id 0) is dispatched in frontier 0, and its
child is dispatched in no frontier at all — in particular in none before
frontier 0. -/
theorem c1_frontier_counterexample :
    ¬ (∀ (d' : DAG) (fs : List (List Nat)),
        DAG.run dagC1Ex RunStyle.LOCAL (fun _ => true) = some (d', fs) →
        ∀ k f, fs[k]? = some f → ∀ i ∈ f, ∀ n ∈ dagC1Ex.nodes, n.id = i →
          ∀ c ∈ n.children, ∃ j : Nat, ∃ f' : List Nat, j < k ∧ fs[j]? = some f' ∧ c ∈ f') := by
  intro hclaim
  obtain ⟨j, f', hj, _, _⟩ :=
    hclaim dagC1Done [[0]] rfl 0 [0] rfl 0 (by decide) nodeC1head (List.Mem.head _)
      rfl 1 (by decide)
  exact Nat.not_lt_zero j hj

/-- Claim C1 (amended): during DAG::run on a DAG with distinct node ids and
children pointing at existing nodes, a pending node is selected into a
dispatch frontier only when none of its children are pending, so for every
node N dispatched in frontier k, every child C of N either was already done
at construction or was dispatched in some frontier before k. -/
theorem c1_frontier_order_amended (d : DAG) (style : RunStyle) (oc : Nat → Bool)
    (d' : DAG) (fs : List (List Nat))
    (hnd : (d.nodes.map Node.id).Nodup)
    (hwf : ∀ n ∈ d.nodes, ∀ c ∈ n.children, ∃ m ∈ d.nodes, m.id = c)
    (hrun : DAG.run d style oc = some (d', fs)) :
    ∀ k f, fs[k]? = some f → ∀ i ∈ f, ∀ n ∈ d.nodes, n.id = i →
      ∀ c ∈ n.children,
        (∃ m ∈ d.nodes, m.id = c ∧ m.isDone = true) ∨
        (∃ j : Nat, ∃ f' : List Nat, j < k ∧ fs[j]? = some f' ∧ c ∈ f') := by
  simp only [DAG.run] at hrun
  exact runLoop_frontier_order style oc (d.nodes.length + 1) d
    ((d.nodes.filter (fun n => n.isDone)).map Node.id)
    ((d.nodes.filter (fun n => !n.isDone)).map Node.id) d' fs hnd hwf
    (dagRun_init_inv d hnd) hrun

/-- Witness for c1_frontier_order_amended at dagC1Ex: the head node (id 0)
is dispatched in frontier 0 and its child (id 1) was already done at
construction. -/
theorem c1_frontier_order_amended_witness :
    ((dagC1Ex.nodes.map Node.id).Nodup ∧
     DAG.run dagC1Ex RunStyle.LOCAL (fun _ => true) = some (dagC1Done, [[0]])) ∧
    ((∃ m ∈ dagC1Ex.nodes, m.id = 1 ∧ m.isDone = true) ∨
     (∃ j : Nat, ∃ f' : List Nat, j < 0 ∧ ([[0]] : List (List Nat))[j]? = some f' ∧ 1 ∈ f')) :=
  ⟨⟨by decide, rfl⟩,
   c1_frontier_order_amended dagC1Ex RunStyle.LOCAL (fun _ => true) dagC1Done [[0]]
     (by decide) (by decide) rfl 0 [0] rfl 0 (by decide) nodeC1head (List.Mem.head _)
     rfl 1 (by decide)⟩

/-! ## Claim C2: done closure -/

/-- Claim C2: if DAG::run returns success (terminates, hence Ok under the
source's infallible loop), every node of the resulting DAG is done, for
either execution policy. -/
theorem c2_run_done_closure (d : DAG) (style : RunStyle) (oc : Nat → Bool)
    (d' : DAG) (fs : List (List Nat))
    (hrun : DAG.run d style oc = some (d', fs)) :
    ∀ n ∈ d'.nodes, n.isDone = true := by
  simp only [DAG.run] at hrun
  exact runLoop_all_done style oc (d.nodes.length + 1) d
    ((d.nodes.filter (fun n => n.isDone)).map Node.id)
    ((d.nodes.filter (fun n => !n.isDone)).map Node.id) d' fs
    (dagRun_init_inv_fwd d) hrun

/-- Witness for c2_run_done_closure: running dagC1Ex succeeds and every node
of the resulting DAG is done. -/
theorem c2_run_done_closure_witness :
    DAG.run dagC1Ex RunStyle.LOCAL (fun _ => true) = some (dagC1Done, [[0]]) ∧
    ∀ n ∈ dagC1Done.nodes, n.isDone = true :=
  ⟨rfl, c2_run_done_closure dagC1Ex RunStyle.LOCAL (fun _ => true) dagC1Done [[0]] rfl⟩

/-! ## Claim C3: dispatch outcomes are ignored -/

/-- Claim C3: DAG::run discards the result of each dispatched
run_no_deps call (`let _ = ... .is_ok()`), so the entire run — its result,
the final DAG, and the dispatched frontiers — is the same under any oracle
of dispatch outcomes, and every dispatched node is marked done in the final
DAG even when its dispatch failed. -/
theorem c3_dispatch_outcomes_ignored (d : DAG) (style : RunStyle) (oc oc' : Nat → Bool) :
    DAG.run d style oc = DAG.run d style oc' ∧
    (∀ d' fs, DAG.run d style oc = some (d', fs) →
      ∀ f ∈ fs, ∀ i ∈ f, ∀ n ∈ d'.nodes, n.id = i → n.isDone = true) := by
  constructor
  · simp only [DAG.run]
    exact runLoop_oc_irrel style oc oc' (d.nodes.length + 1) d _ _
  · intro d' fs hrun f hf i hi n hn hni
    simp only [DAG.run] at hrun
    exact runLoop_all_done style oc (d.nodes.length + 1) d
      ((d.nodes.filter (fun n => n.isDone)).map Node.id)
      ((d.nodes.filter (fun n => !n.isDone)).map Node.id) d' fs
      (dagRun_init_inv_fwd d) hrun n hn

/-- Witness for c3_dispatch_outcomes_ignored: running dagC1Ex with the
all-failures oracle equals running it with the all-successes oracle, and the
dispatched node 0 ends done. -/
theorem c3_dispatch_outcomes_ignored_witness :
    DAG.run dagC1Ex RunStyle.PARALLEL (fun _ => false) =
      DAG.run dagC1Ex RunStyle.PARALLEL (fun _ => true) ∧
    (∀ f ∈ [[0]], ∀ i ∈ f, ∀ n ∈ dagC1Done.nodes, n.id = i → n.isDone = true) :=
  ⟨(c3_dispatch_outcomes_ignored dagC1Ex RunStyle.PARALLEL (fun _ => false)
      (fun _ => true)).1,
   (c3_dispatch_outcomes_ignored dagC1Ex RunStyle.PARALLEL (fun _ => false)
      (fun _ => true)).2 dagC1Done [[0]] rfl⟩

/-! ## Claim C4: initial done flags and no recomputation -/

/-- The worklist of DAG::new emits only nodes whose done flag is the
construction-time exists observation of their own task. -/
theorem newLoop_done_exists0 :
    ∀ (fuel : Nat) (tp : List ChildData) (proc : List Node) (ctr : Nat),
      (∀ n ∈ proc, n.isDone = n.task.exists0) →
      ∀ n ∈ newLoop fuel tp proc ctr, n.isDone = n.task.exists0 := by
  intro fuel
  induction fuel with
  | zero =>
    intro tp proc ctr hproc n hn
    exact hproc n hn
  | succ m ih =>
    intro tp proc ctr hproc n hn
    cases tp with
    | nil => exact hproc n hn
    | cons cd rest =>
      simp only [newLoop] at hn
      refine ih _ _ _ ?_ n hn
      intro n' hn'
      rcases List.mem_append.mp hn' with h | h
      · exact hproc n' h
      · rcases List.mem_singleton.mp h with rfl
        rfl

/-- Claim C4: in a freshly built DAG every node's done flag equals the
construction-time `target_factory().exists()` observation of its task, and a
node that is done at DAG::run entry (with distinct node ids) is never
dispatched — its task is never recomputed. -/
theorem c4_initial_done_no_redispatch (t : STask) (d : DAG) (style : RunStyle)
    (oc : Nat → Bool) (d' : DAG) (fs : List (List Nat)) :
    (∀ n ∈ (DAG.new t).nodes, n.isDone = n.task.exists0) ∧
    ((d.nodes.map Node.id).Nodup → DAG.run d style oc = some (d', fs) →
      ∀ n ∈ d.nodes, n.isDone = true → ∀ f ∈ fs, n.id ∉ f) := by
  constructor
  · intro n hn
    simp only [DAG.new] at hn
    refine newLoop_done_exists0 _ _ _ _ ?_ n hn
    intro n' hn'
    rcases List.mem_singleton.mp hn' with rfl
    rfl
  · intro hnd hrun n hn hdone f hf
    intro hmem
    simp only [DAG.run] at hrun
    have hsub := runLoop_dispatched_sub style oc (d.nodes.length + 1) d
      ((d.nodes.filter (fun n => n.isDone)).map Node.id)
      ((d.nodes.filter (fun n => !n.isDone)).map Node.id) d' fs hrun f hf n.id hmem
    rcases List.mem_map.mp hsub with ⟨m, hm, hid⟩
    obtain ⟨hm₀, hmd⟩ := List.mem_filter.mp hm
    have : m = n := List.inj_on_of_nodup_map hnd hm₀ hn hid
    rw [this] at hmd
    rw [hdone] at hmd
    simp at hmd

/-- Witness for c4_initial_done_no_redispatch at dagC1Ex: done flags match
the construction-time exists observations, and the child node (id 1, done at
construction) appears in no dispatched frontier. -/
theorem c4_initial_done_no_redispatch_witness :
    (∀ n ∈ (DAG.new stC1head).nodes, n.isDone = n.task.exists0) ∧
    (∀ f ∈ [[0]], (1 : Nat) ∉ f) :=
  have h := c4_initial_done_no_redispatch stC1head dagC1Ex RunStyle.LOCAL
    (fun _ => true) dagC1Done [[0]]
  ⟨h.1,
   fun f hf =>
     h.2 (by decide) rfl ⟨1, .mk true true [], true, some 0, [], true⟩
       (List.Mem.tail _ (List.Mem.head _)) rfl f hf⟩

/-! ## Claim C10: delete_all is sequential and not atomic on error -/

/-- The node loop of delete_all: on success every node is reset (target
deleted, done flag cleared) and every delete succeeded; on failure there is
a first failing node — every node before it succeeded and is reset, and it
and every node after it are completely untouched. -/
theorem deleteAllNodes_spec (ns : List Node) :
    ((deleteAllNodes ns).1 = true →
      (deleteAllNodes ns).2 = ns.map resetNode ∧
      ∀ n ∈ ns, n.task.deleteOk = true) ∧
    ((deleteAllNodes ns).1 = false →
      ∃ k m, ns[k]? = some m ∧ m.task.deleteOk = false ∧
        (∀ i, i < k → ∀ m', ns[i]? = some m' → m'.task.deleteOk = true) ∧
        (deleteAllNodes ns).2 = (ns.take k).map resetNode ++ ns.drop k) := by
  induction ns with
  | nil =>
    constructor
    · intro _
      exact ⟨rfl, fun n hn => absurd hn (List.not_mem_nil n)⟩
    · intro h
      simp [deleteAllNodes] at h
  | cons n rest ih =>
    by_cases hok : n.task.deleteOk = true
    · constructor
      · intro h
        simp only [deleteAllNodes, hok, if_true] at h ⊢
        obtain ⟨h1, h2⟩ := ih.1 h
        refine ⟨by rw [h1, List.map_cons], ?_⟩
        intro n' hn'
        rcases List.mem_cons.mp hn' with rfl | hmem
        · exact hok
        · exact h2 n' hmem
      · intro h
        simp only [deleteAllNodes, hok, if_true] at h ⊢
        obtain ⟨k, mm, hk, hmd, hbefore, heq⟩ := ih.2 h
        refine ⟨k + 1, mm, by rw [List.getElem?_cons_succ]; exact hk, hmd, ?_, ?_⟩
        · intro i hi m' hm'
          cases i with
          | zero =>
            rw [List.getElem?_cons_zero] at hm'
            injection hm' with hm''
            rw [← hm'']
            exact hok
          | succ i' =>
            rw [List.getElem?_cons_succ] at hm'
            exact hbefore i' (Nat.lt_of_succ_lt_succ hi) m' hm'
        · rw [heq]
          rfl
    · have hok' : n.task.deleteOk = false := by
        cases hd : n.task.deleteOk
        · rfl
        · exact absurd hd hok
      constructor
      · intro h
        simp [deleteAllNodes, hok'] at h
      · intro _
        refine ⟨0, n, List.getElem?_cons_zero, hok', ?_, ?_⟩
        · intro i hi
          exact absurd hi (Nat.not_lt_zero i)
        · simp [deleteAllNodes, hok']

/-- Claim C10: DAG::delete_all deletes each node's target and clears its
done flag one node at a time, returning the first error at once: on failure
the already-processed prefix is deleted and reset while the failing node and
every later node keep their previous done flags and targets (delete_all is
not atomic on error); on success every node is reset. -/
theorem c10_delete_all_nonatomic (d : DAG) :
    ((DAG.deleteAll d).1 = true →
      (DAG.deleteAll d).2.nodes = d.nodes.map resetNode ∧
      ∀ n ∈ d.nodes, n.task.deleteOk = true) ∧
    ((DAG.deleteAll d).1 = false →
      ∃ k m, d.nodes[k]? = some m ∧ m.task.deleteOk = false ∧
        (∀ i, i < k → ∀ m', d.nodes[i]? = some m' → m'.task.deleteOk = true) ∧
        (DAG.deleteAll d).2.nodes = (d.nodes.take k).map resetNode ++ d.nodes.drop k) :=
  deleteAllNodes_spec d.nodes

/-- Witness for c10_delete_all_nonatomic: in dagC10W the head's delete
succeeds and the child's fails, so delete_all fails, the head is deleted and
reset, and the child keeps its done flag and target. -/
theorem c10_delete_all_nonatomic_witness :
    (DAG.deleteAll dagC10W).1 = false ∧
    (∃ k m, dagC10W.nodes[k]? = some m ∧ m.task.deleteOk = false ∧
      (∀ i, i < k → ∀ m', dagC10W.nodes[i]? = some m' → m'.task.deleteOk = true) ∧
      (DAG.deleteAll dagC10W).2.nodes =
        (dagC10W.nodes.take k).map resetNode ++ dagC10W.nodes.drop k) :=
  ⟨rfl, (c10_delete_all_nonatomic dagC10W).2 rfl⟩

/-! ## Claim C9: get_data -/

/-- Claim C9 as stated says get_data fails whenever the task's target does
not exist.  It fails for a task with a NullTarget: the target never exists,
yet get_data succeeds with empty bytes (NullTarget::read returns Ok). -/
theorem c9_get_data_counterexample :
    existsT (TTask.mk "w" .null (fun _ => some []) (fun _ => true) []).target [] = false ∧
    (TTask.mk "w" .null (fun _ => some []) (fun _ => true) []).getData [] = some [] := by
  decide

/-- Claim C9 (amended): get_data reads the task's own target; for a
file-backed target it fails exactly when the target does not exist, while
for a null-target task it succeeds with empty bytes even though the target
never exists. -/
theorem c9_get_data_amended (nm : String) (cpt : Store → Option Bytes)
    (vd : Bytes → Bool) (ds : List TTask) (p : String) (σ : Store) :
    (TTask.getData (.mk nm (.file p) cpt vd ds) σ = readT (.file p) σ ∧
      ((TTask.getData (.mk nm (.file p) cpt vd ds) σ = none) ↔
        existsT (.file p) σ = false)) ∧
    (TTask.getData (.mk nm .null cpt vd ds) σ = some [] ∧
      existsT (.null) σ = false) := by
  refine ⟨⟨rfl, ?_⟩, rfl, rfl⟩
  simp [TTask.getData, TTask.target, readT, existsT]

end RustTasks
